import Mathlib

/-!
Shallow embedding of the MS-Apriori itemset miner (`HW1/HW1.py`, class
`MSApriori`), together with theorems about its mining core.

Transactions are finite sets of item identifiers (`Finset ℕ`), numeric
parameters (MIS values, prices, SDC, AVPT) are rationals, and every method
of the class used by the mining core is translated to a Lean function over
an `MSApriori` structure.  The Python singleton-support cache
(`item_support_cache`) is only ever written with the value
`support({item}) / total_transactions`, so it is embedded as the pure
function `item_support`.
-/

/-- State of one mining run: the transaction store and the parameter table
(`self.transactions`, `self.mis_values`, `self.mis_rest`, `self.prices`,
`self.price_rest`, `self.sdc`, `self.avpt`). -/
structure MSApriori where
  transactions : List (Finset ℕ)
  mis_values : ℕ → Option ℚ
  mis_rest : ℚ
  prices : ℕ → Option ℚ
  price_rest : ℚ
  sdc : ℚ
  avpt : ℚ

/-- `self.total_transactions`, set to `len(self.transactions)` at load time. -/
def MSApriori.total_transactions (A : MSApriori) : ℕ := A.transactions.length

/-- `get_mis`: the item's explicit MIS if configured, else the rest default. -/
def MSApriori.get_mis (A : MSApriori) (item : ℕ) : ℚ :=
  (A.mis_values item).getD A.mis_rest

/-- `get_price`: the item's explicit price if configured, else the rest default. -/
def MSApriori.get_price (A : MSApriori) (item : ℕ) : ℚ :=
  (A.prices item).getD A.price_rest

/-- `get_support_count`: number of transactions having the itemset as subset. -/
def MSApriori.get_support_count (A : MSApriori) (itemset : Finset ℕ) : ℕ :=
  (A.transactions.filter (fun t => decide (itemset ⊆ t))).length

/-- `get_tail_count`: total transaction count for itemsets of size ≤ 1; for
larger itemsets, the support count of the sorted itemset minus its last item. -/
def MSApriori.get_tail_count (A : MSApriori) (itemset : Finset ℕ) : ℕ :=
  if itemset.card ≤ 1 then A.total_transactions
  else
    let sorted_items := itemset.sort (· ≤ ·)
    let pfx := sorted_items.dropLast.toFinset
    A.get_support_count pfx

/-- `get_average_price`: arithmetic mean of the members' prices. -/
def MSApriori.get_average_price (A : MSApriori) (itemset : Finset ℕ) : ℚ :=
  (∑ i ∈ itemset, A.get_price i) / itemset.card

/-- Singleton support ratio `get_support_count({item}) / total_transactions`,
the value stored in `item_support_cache`. -/
def MSApriori.item_support (A : MSApriori) (item : ℕ) : ℚ :=
  (A.get_support_count {item} : ℚ) / A.total_transactions

/-- `item_counts[item]` of `init_pass`: transactions containing the item. -/
def MSApriori.item_count (A : MSApriori) (item : ℕ) : ℕ :=
  (A.transactions.filter (fun t => decide (item ∈ t))).length

/-- `satisfies_sdc`: itemsets of size ≤ 1 pass; otherwise the spread between
the largest and smallest member singleton support ratio must be ≤ SDC. -/
def MSApriori.satisfies_sdc (A : MSApriori) (itemset : Finset ℕ) : Bool :=
  if h : itemset.card ≤ 1 then true
  else
    let ratios := itemset.image A.item_support
    have hne : ratios.Nonempty := (Finset.card_pos.mp (by omega)).image _
    decide (ratios.max' hne - ratios.min' hne ≤ A.sdc)

/-- `satisfies_avpt`: the average price must reach the AVPT threshold. -/
def MSApriori.satisfies_avpt (A : MSApriori) (itemset : Finset ℕ) : Bool :=
  decide (A.get_average_price itemset ≥ A.avpt)

/-- Items observed in any transaction (`item_counts.keys()`). -/
def MSApriori.all_items (A : MSApriori) : Finset ℕ :=
  A.transactions.foldr (· ∪ ·) ∅

/-- `sorted(item_counts.keys(), key=lambda x: (self.get_mis(x), x))`. -/
def MSApriori.sorted_items (A : MSApriori) : List ℕ :=
  (A.all_items.sort (· ≤ ·)).mergeSort (fun a b =>
    decide (A.get_mis a < A.get_mis b) ||
      (decide (A.get_mis a = A.get_mis b) && decide (a ≤ b)))

/-- Scan of `init_pass` finding M, the first item in MIS-sorted order whose
own support ratio reaches its own MIS. -/
def MSApriori.findM (A : MSApriori) : Option ℕ :=
  A.sorted_items.find? (fun item => decide (A.item_support item ≥ A.get_mis item))

/-- Tuple `(itemset, support_count, tail_count, avg_price)` appended to a
level's frequent list. -/
structure FrequentRecord where
  itemset : Finset ℕ
  support_count : ℕ
  tail_count : ℕ
  avg_price : ℚ
deriving DecidableEq

/-- Builds the tuple appended for a surviving candidate. -/
def MSApriori.mkRecord (A : MSApriori) (itemset : Finset ℕ) (support_count : ℕ) :
    FrequentRecord :=
  ⟨itemset, support_count, A.get_tail_count itemset, A.get_average_price itemset⟩

/-- `init_pass`: after finding M, every item is tested against the single
threshold `get_mis(M)` (the Python `if item == M / else` assigns the same
value in both branches) together with the AVPT predicate. -/
def MSApriori.init_pass (A : MSApriori) : List FrequentRecord :=
  match A.findM with
  | none => []
  | some M =>
    A.sorted_items.filterMap (fun item =>
      let min_support := if item = M then A.get_mis M else A.get_mis M
      if A.item_support item ≥ min_support ∧ A.satisfies_avpt {item} = true then
        some (A.mkRecord {item} (A.item_count item))
      else none)

/-- Index pairs `(i, j)` with `i < j < n`, in the order produced by the
Python nested loops `for i in range(n): for j in range(i+1, n)`. -/
def pairsIdx (n : ℕ) : List (ℕ × ℕ) :=
  (List.range n).flatMap (fun i =>
    ((List.range n).filter (fun j => decide (i < j))).map (fun j => (i, j)))

/-- `list(itemset)[0]` of `level2_candidate_gen`; the lists it is applied to
hold singleton itemsets, whose unique member this extracts. -/
def itemOf (r : FrequentRecord) : ℕ := (r.itemset.sort (· ≤ ·)).headI

/-- `level2_candidate_gen`: emit `{item_i, item_j}` for each `i < j` pair of
frequent-1 items whenever item_i's own support ratio reaches its own MIS. -/
def MSApriori.level2_candidate_gen (A : MSApriori)
    (frequent_1 : List FrequentRecord) : List (Finset ℕ) :=
  let items_list := frequent_1.map itemOf
  (pairsIdx items_list.length).filterMap (fun p =>
    let item_i := items_list.getD p.1 0
    let item_j := items_list.getD p.2 0
    if A.item_support item_i ≥ A.get_mis item_i then some {item_i, item_j}
    else none)

/-- Join attempt for one `(i, j)` pair of `msapriori_candidate_gen`: the two
itemsets join when their sorted lists agree off the last element and the
union has exactly `k` elements. -/
def joinPair (itemsets : List (Finset ℕ)) (k i j : ℕ) : Option (Finset ℕ) :=
  let set_i := itemsets.getD i ∅
  let set_j := itemsets.getD j ∅
  if (set_i.sort (· ≤ ·)).dropLast = (set_j.sort (· ≤ ·)).dropLast then
    let candidate := set_i ∪ set_j
    if candidate.card = k then some candidate else none
  else none

/-- Join step of `msapriori_candidate_gen` over all `i < j` pairs. -/
def joinStep (itemsets : List (Finset ℕ)) (k : ℕ) : List (Finset ℕ) :=
  (pairsIdx itemsets.length).filterMap (fun p => joinPair itemsets k p.1 p.2)

/-- Prune test of `msapriori_candidate_gen`: with `c1` the candidate's
smallest item, every one-item-removed subset that still contains `c1` or
whose removed item has the same MIS as `c1` must be a known frequent
itemset. -/
def MSApriori.pruneCheck (A : MSApriori) (frequent_sets : List (Finset ℕ))
    (candidate : Finset ℕ) : Bool :=
  let c1 := (candidate.sort (· ≤ ·)).headI
  (candidate.sort (· ≤ ·)).all (fun item =>
    let subset := candidate.erase item
    if c1 ∈ subset ∨ A.get_mis item = A.get_mis c1 then
      decide (subset ∈ frequent_sets)
    else true)

/-- `msapriori_candidate_gen`: join step followed by the prune step. -/
def MSApriori.msapriori_candidate_gen (A : MSApriori)
    (frequent_prev : List FrequentRecord) (k : ℕ) : List (Finset ℕ) :=
  let itemsets := frequent_prev.map (fun r => r.itemset)
  (joinStep itemsets k).filter (fun c => A.pruneCheck itemsets c)

/-- Threshold `min(self.get_mis(item) for item in candidate)` used by
`run_msapriori`; the Python `min` is only applied to nonempty candidates. -/
def MSApriori.min_mis (A : MSApriori) (candidate : Finset ℕ) : ℚ :=
  if h : candidate.Nonempty then (candidate.image A.get_mis).min' (h.image _)
  else 0

/-- Inline minimum-support test of `run_msapriori` (levels 2 and ≥ 3). -/
def MSApriori.minSupportOK (A : MSApriori) (candidate : Finset ℕ) : Bool :=
  decide ((A.get_support_count candidate : ℚ) / A.total_transactions ≥
    A.min_mis candidate)

/-- Body of the per-candidate loop of `run_msapriori` (identical at level 2
and at levels ≥ 3): keep candidates passing all three predicates. -/
def MSApriori.constraintFilter (A : MSApriori) (candidates : List (Finset ℕ)) :
    List FrequentRecord :=
  candidates.filterMap (fun candidate =>
    if A.minSupportOK candidate && A.satisfies_sdc candidate &&
        A.satisfies_avpt candidate then
      some (A.mkRecord candidate (A.get_support_count candidate))
    else none)

/-- `while True` loop of `run_msapriori` for levels k ≥ 3, with explicit
fuel; the termination theorem shows any fuel beyond `all_items.card + 1 - k`
yields the same value, so the fuel is not a semantic restriction. -/
def MSApriori.runLoop (A : MSApriori) :
    List FrequentRecord → ℕ → ℕ → List (ℕ × List FrequentRecord)
  | _, _, 0 => []
  | frequent_prev, k, fuel + 1 =>
    let candidates := A.msapriori_candidate_gen frequent_prev k
    if candidates = [] then []
    else
      let frequent_k := A.constraintFilter candidates
      if frequent_k = [] then []
      else (k, frequent_k) :: A.runLoop frequent_k (k + 1) fuel

/-- `run_msapriori`: the accumulated `frequent_itemsets` dictionary, as the
list of `(level, records)` entries in ascending level order. -/
def MSApriori.run_msapriori (A : MSApriori) : List (ℕ × List FrequentRecord) :=
  let frequent_1 := A.init_pass
  if frequent_1 = [] then []
  else
    let candidates_2 := A.level2_candidate_gen frequent_1
    let frequent_2 := A.constraintFilter candidates_2
    if frequent_2 = [] then [(1, frequent_1)]
    else (1, frequent_1) :: (2, frequent_2) ::
      A.runLoop frequent_2 3 (A.all_items.card + 1)

/-! ### Concrete instances used to exercise the theorems -/

/-- Scenario instance: transactions `[{1,2,3},{1,2},{1,3},{2,3},{1}]` with
every MIS 1/5, every price 0, SDC 1, AVPT 0. -/
def exA : MSApriori :=
  { transactions := [{1, 2, 3}, {1, 2}, {1, 3}, {2, 3}, {1}]
    mis_values := fun _ => none
    mis_rest := 1 / 5
    prices := fun _ => none
    price_rest := 0
    sdc := 1
    avpt := 0 }

/-- Instance in which no item reaches its own MIS (every MIS is 2). -/
def exB : MSApriori :=
  { transactions := [{1}]
    mis_values := fun _ => none
    mis_rest := 2
    prices := fun _ => none
    price_rest := 0
    sdc := 1
    avpt := 0 }

/-- Level-1 frequent records of the scenario instance. -/
def exFreq1 : List FrequentRecord :=
  [⟨{1}, 4, 5, 0⟩, ⟨{2}, 3, 5, 0⟩, ⟨{3}, 3, 5, 0⟩]

/-- Level-2 frequent records of the scenario instance, used as input for the
level-3 candidate generation theorems. -/
def exFreq2 : List FrequentRecord :=
  [⟨{1, 2}, 2, 4, 0⟩, ⟨{1, 3}, 2, 4, 0⟩, ⟨{2, 3}, 2, 3, 0⟩]

/-- Largest element of a finite set (0 on the empty set); used to state
which two previous-level itemsets can join into a given candidate. -/
def topOf (c : Finset ℕ) : ℕ := if h : c.Nonempty then c.max' h else 0

/-- Second largest element of a finite set. -/
def sndOf (c : Finset ℕ) : ℕ := topOf (c.erase (topOf c))

/-! ### Basic facts about the oracle functions -/

lemma MSApriori.item_count_eq (A : MSApriori) (item : ℕ) :
    A.item_count item = A.get_support_count {item} := by
  unfold item_count get_support_count
  congr 1
  apply List.filter_congr
  intro t _
  simp [Finset.singleton_subset_iff]

lemma MSApriori.get_support_count_mono (A : MSApriori) {s t : Finset ℕ}
    (h : s ⊆ t) : A.get_support_count t ≤ A.get_support_count s := by
  unfold get_support_count
  rw [← List.countP_eq_length_filter, ← List.countP_eq_length_filter]
  apply List.countP_mono_left
  intro x _ hx
  simp only [decide_eq_true_eq] at hx ⊢
  exact h.trans hx

lemma MSApriori.mem_sorted_items {A : MSApriori} {i : ℕ} :
    i ∈ A.sorted_items ↔ i ∈ A.all_items := by
  unfold sorted_items
  rw [(List.mergeSort_perm _ _).mem_iff, Finset.mem_sort]

lemma MSApriori.sorted_items_nodup (A : MSApriori) : A.sorted_items.Nodup := by
  unfold sorted_items
  exact (List.mergeSort_perm _ _).nodup_iff.mpr (Finset.sort_nodup _ _)

lemma sort_ne_nil {s : Finset ℕ} (hs : s.Nonempty) : s.sort (· ≤ ·) ≠ [] := by
  intro h
  have hc := Finset.card_pos.mpr hs
  have hl : (s.sort (· ≤ ·)).length = s.card := Finset.length_sort _
  rw [h] at hl
  simp at hl
  omega

lemma headI_eq_getElem_zero {l : List ℕ} (h : 0 < l.length) : l.headI = l[0] := by
  cases l with
  | nil => simp at h
  | cons a t => rfl

lemma headI_sort_eq_min' (s : Finset ℕ) (hs : s.Nonempty) :
    (s.sort (· ≤ ·)).headI = s.min' hs := by
  have hlen : 0 < (s.sort (· ≤ ·)).length := by
    rw [Finset.length_sort]
    exact Finset.card_pos.mpr hs
  rw [headI_eq_getElem_zero hlen, Finset.sorted_zero_eq_min']

lemma getLast_sort_eq_max' (s : Finset ℕ) (hs : s.Nonempty)
    (h : s.sort (· ≤ ·) ≠ []) :
    (s.sort (· ≤ ·)).getLast h = s.max' hs := by
  rw [List.getLast_eq_getElem]
  exact Finset.sorted_last_eq_max'

lemma dropLast_sort_subset (c : Finset ℕ) :
    (c.sort (· ≤ ·)).dropLast.toFinset ⊆ c := by
  intro a ha
  rw [List.mem_toFinset] at ha
  exact (Finset.mem_sort _).mp (List.dropLast_subset _ ha)

lemma dropLast_sort_toFinset (s : Finset ℕ) (hs : s.Nonempty) :
    (s.sort (· ≤ ·)).dropLast.toFinset = s.erase (s.max' hs) := by
  have hne : s.sort (· ≤ ·) ≠ [] := sort_ne_nil hs
  have hsplit := List.dropLast_append_getLast hne
  have hnd : (s.sort (· ≤ ·)).Nodup := Finset.sort_nodup _ _
  have hlast : (s.sort (· ≤ ·)).getLast hne = s.max' hs :=
    getLast_sort_eq_max' s hs hne
  have hnotmem : (s.sort (· ≤ ·)).getLast hne ∉ (s.sort (· ≤ ·)).dropLast := by
    intro hmem
    have hnd2 := hnd
    rw [← hsplit, List.nodup_append] at hnd2
    exact hnd2.2.2 hmem (by simp)
  ext a
  simp only [List.mem_toFinset, Finset.mem_erase]
  constructor
  · intro ha
    refine ⟨?_, ?_⟩
    · intro haeq
      rw [haeq, ← hlast] at ha
      exact hnotmem ha
    · exact (Finset.mem_sort _).mp (List.dropLast_subset _ ha)
  · rintro ⟨hane, has⟩
    have hasort : a ∈ s.sort (· ≤ ·) := (Finset.mem_sort _).mpr has
    rw [← hsplit, List.mem_append] at hasort
    rcases hasort with h1 | h1
    · exact h1
    · simp at h1
      rw [h1, hlast] at hane
      exact absurd rfl hane

lemma max'_pair (x y : ℚ) (h : ({x, y} : Finset ℚ).Nonempty) :
    ({x, y} : Finset ℚ).max' h = x ⊔ y := by
  apply le_antisymm
  · apply Finset.max'_le
    intro z hz
    rcases Finset.mem_insert.mp hz with h1 | h1
    · rw [h1]; exact le_sup_left
    · rw [Finset.mem_singleton.mp h1]; exact le_sup_right
  · rw [sup_le_iff]
    exact ⟨Finset.le_max' _ _ (by simp), Finset.le_max' _ _ (by simp)⟩

lemma min'_pair (x y : ℚ) (h : ({x, y} : Finset ℚ).Nonempty) :
    ({x, y} : Finset ℚ).min' h = x ⊓ y := by
  apply le_antisymm
  · rw [le_inf_iff]
    exact ⟨Finset.min'_le _ _ (by simp), Finset.min'_le _ _ (by simp)⟩
  · apply Finset.le_min'
    intro z hz
    rcases Finset.mem_insert.mp hz with h1 | h1
    · rw [h1]; exact inf_le_left
    · rw [Finset.mem_singleton.mp h1]; exact inf_le_right

/-! ### Claim theorems: oracle-level properties -/

/-- C5: `get_tail_count` returns the total transaction count for itemsets
of size at most 1, and for larger itemsets the support count of the set
with its numerically largest member removed. -/
theorem get_tail_count_spec (A : MSApriori) (c : Finset ℕ) :
    (c.card ≤ 1 → A.get_tail_count c = A.total_transactions) ∧
    (∀ hc : c.Nonempty, 2 ≤ c.card →
      A.get_tail_count c = A.get_support_count (c.erase (c.max' hc))) := by
  constructor
  · intro h
    unfold MSApriori.get_tail_count
    rw [if_pos h]
  · intro hc h2
    unfold MSApriori.get_tail_count
    rw [if_neg (by omega)]
    simp only [dropLast_sort_toFinset c hc]

theorem get_tail_count_spec_witness :
    2 ≤ ({1, 2} : Finset ℕ).card ∧
      exA.get_tail_count {1, 2} =
        exA.get_support_count
          (({1, 2} : Finset ℕ).erase (({1, 2} : Finset ℕ).max' ⟨1, by decide⟩)) :=
  ⟨by decide, (get_tail_count_spec exA {1, 2}).2 ⟨1, by decide⟩ (by decide)⟩

/-- C10: the tail count of an itemset always dominates its support count. -/
theorem get_support_count_le_get_tail_count (A : MSApriori) (c : Finset ℕ) :
    A.get_support_count c ≤ A.get_tail_count c := by
  unfold MSApriori.get_tail_count
  split
  · unfold MSApriori.get_support_count MSApriori.total_transactions
    exact List.length_filter_le _ _
  · exact A.get_support_count_mono (dropLast_sort_subset c)

/-- C6: the SDC predicate holds vacuously for itemsets of size at most 1;
for larger itemsets it holds exactly when the spread between the largest
and smallest member singleton support ratio is at most SDC; for a two-item
set this is the absolute difference of the two ratios being at most SDC. -/
theorem satisfies_sdc_spec (A : MSApriori) (hN : 0 < A.total_transactions) :
    (∀ c : Finset ℕ, c.card ≤ 1 → A.satisfies_sdc c = true) ∧
    (∀ (c : Finset ℕ) (hc : 2 ≤ c.card),
      (A.satisfies_sdc c = true ↔
        (c.image A.item_support).max' ((Finset.card_pos.mp (by omega)).image _) -
          (c.image A.item_support).min' ((Finset.card_pos.mp (by omega)).image _) ≤
          A.sdc)) ∧
    (∀ a b : ℕ, a ≠ b →
      (A.satisfies_sdc {a, b} = true ↔
        |A.item_support a - A.item_support b| ≤ A.sdc)) := by
  refine ⟨?_, ?_, ?_⟩
  · intro c h
    unfold MSApriori.satisfies_sdc
    rw [dif_pos h]
  · intro c hc
    unfold MSApriori.satisfies_sdc
    rw [dif_neg (by omega)]
    simp only [decide_eq_true_eq]
  · intro a b hab
    have hcard : ({a, b} : Finset ℕ).card = 2 := Finset.card_pair hab
    have himg : ({a, b} : Finset ℕ).image A.item_support =
        {A.item_support a, A.item_support b} := by
      rw [Finset.image_insert, Finset.image_singleton]
    unfold MSApriori.satisfies_sdc
    rw [dif_neg (by omega)]
    simp only [decide_eq_true_eq, himg, max'_pair, min'_pair]
    rw [max_sub_min_eq_abs, abs_sub_comm]

theorem satisfies_sdc_spec_witness :
    0 < exA.total_transactions ∧ exA.satisfies_sdc {1} = true :=
  ⟨by decide, (satisfies_sdc_spec exA (by decide)).1 {1} (by decide)⟩

/-- C1: the inline minimum-support test of `run_msapriori` accepts a size
≥ 2 candidate exactly when its support ratio reaches the least MIS among
its members: a threshold attained by some member and not exceeding any
member's MIS. -/
theorem minSupportOK_spec (A : MSApriori) (c : Finset ℕ) (hc : 2 ≤ c.card)
    (hN : 0 < A.total_transactions) :
    (A.minSupportOK c = true ↔
      ∃ t : ℚ, (∃ i ∈ c, A.get_mis i = t) ∧ (∀ i ∈ c, t ≤ A.get_mis i) ∧
        t ≤ (A.get_support_count c : ℚ) / A.total_transactions) := by
  have hne : c.Nonempty := Finset.card_pos.mp (by omega)
  unfold MSApriori.minSupportOK MSApriori.min_mis
  rw [dif_pos hne]
  simp only [decide_eq_true_eq, ge_iff_le]
  constructor
  · intro h
    refine ⟨(c.image A.get_mis).min' (hne.image _), ?_, ?_, h⟩
    · have hm := Finset.min'_mem (c.image A.get_mis) (hne.image _)
      rw [Finset.mem_image] at hm
      exact hm
    · intro i hi
      exact Finset.min'_le _ _ (Finset.mem_image_of_mem _ hi)
  · rintro ⟨t, ⟨i0, hi0, hti⟩, hall, hle⟩
    have h1 : (c.image A.get_mis).min' (hne.image _) ≤ t := by
      rw [← hti]
      exact Finset.min'_le _ _ (Finset.mem_image_of_mem _ hi0)
    exact le_trans h1 hle

theorem minSupportOK_spec_witness :
    2 ≤ ({1, 2} : Finset ℕ).card ∧ 0 < exA.total_transactions ∧
      (exA.minSupportOK {1, 2} = true ↔
        ∃ t : ℚ, (∃ i ∈ ({1, 2} : Finset ℕ), exA.get_mis i = t) ∧
          (∀ i ∈ ({1, 2} : Finset ℕ), t ≤ exA.get_mis i) ∧
          t ≤ (exA.get_support_count {1, 2} : ℚ) / exA.total_transactions) :=
  ⟨by decide, by decide, minSupportOK_spec exA {1, 2} (by decide) (by decide)⟩

/-- C8: when no observed item's own support ratio reaches its own MIS, the
run yields the empty result set, a valid terminal state. -/
theorem run_msapriori_empty_of_no_anchor (A : MSApriori)
    (h : ∀ i ∈ A.all_items, A.item_support i < A.get_mis i) :
    A.run_msapriori = [] := by
  have hM : A.findM = none := by
    unfold MSApriori.findM
    rw [List.find?_eq_none]
    intro x hx
    simp only [decide_eq_true_eq, ge_iff_le, not_le]
    exact h x (MSApriori.mem_sorted_items.mp hx)
  have hinit : A.init_pass = [] := by
    unfold MSApriori.init_pass
    rw [hM]
  unfold MSApriori.run_msapriori
  rw [hinit]
  simp

theorem run_msapriori_empty_of_no_anchor_witness :
    (∀ i ∈ exB.all_items, exB.item_support i < exB.get_mis i) ∧
      exB.run_msapriori = [] := by
  have h : ∀ i ∈ exB.all_items, exB.item_support i < exB.get_mis i := by
    have hall : exB.all_items = {1} := by decide
    have hsc : exB.get_support_count {1} = 1 := by decide
    rw [hall]
    intro i hi
    rw [Finset.mem_singleton] at hi
    subst hi
    unfold MSApriori.item_support MSApriori.get_mis MSApriori.total_transactions
    rw [hsc]
    norm_num [exB]
  exact ⟨h, run_msapriori_empty_of_no_anchor exB h⟩

/-! ### The index-pair iteration of the nested generation loops -/

lemma mem_pairsIdx {n : ℕ} {p : ℕ × ℕ} :
    p ∈ pairsIdx n ↔ p.1 < p.2 ∧ p.2 < n := by
  unfold pairsIdx
  rw [List.mem_flatMap]
  constructor
  · rintro ⟨i, hi, hp⟩
    rcases List.mem_map.mp hp with ⟨j, hj, rfl⟩
    rcases List.mem_filter.mp hj with ⟨hjr, hij⟩
    simp only [decide_eq_true_eq] at hij
    exact ⟨hij, List.mem_range.mp hjr⟩
  · rintro ⟨h12, h2n⟩
    refine ⟨p.1, List.mem_range.mpr (lt_trans h12 h2n), List.mem_map.mpr ⟨p.2, ?_, rfl⟩⟩
    exact List.mem_filter.mpr ⟨List.mem_range.mpr h2n, by simpa using h12⟩

lemma pairsIdx_nodup (n : ℕ) : (pairsIdx n).Nodup := by
  unfold pairsIdx
  rw [List.nodup_flatMap]
  constructor
  · intro i _
    exact ((List.nodup_range n).filter _).map
      (fun a b h => by simpa using congrArg Prod.snd h)
  · have hpw : List.Pairwise (· < ·) (List.range n) := List.pairwise_lt_range n
    apply hpw.imp
    intro a b hab x hxa hxb
    rcases List.mem_map.mp hxa with ⟨j, _, rfl⟩
    rcases List.mem_map.mp hxb with ⟨j', _, hj'⟩
    have : a = b := by
      have := congrArg Prod.fst hj'
      simpa using this.symm
    omega

lemma nodup_filterMap {α β : Type _} {l : List α} {f : α → Option β}
    (hl : l.Nodup)
    (hinj : ∀ a ∈ l, ∀ a' ∈ l, ∀ b, f a = some b → f a' = some b → a = a') :
    (l.filterMap f).Nodup := by
  induction l with
  | nil => simp
  | cons a t ih =>
    rw [List.filterMap_cons]
    have hnd := List.nodup_cons.mp hl
    have hinj' : ∀ x ∈ t, ∀ y ∈ t, ∀ b, f x = some b → f y = some b → x = y :=
      fun x hx y hy b h1 h2 =>
        hinj x (List.mem_cons_of_mem a hx) y (List.mem_cons_of_mem a hy) b h1 h2
    cases hfa : f a with
    | none => exact ih hnd.2 hinj'
    | some b =>
      rw [List.nodup_cons]
      refine ⟨?_, ih hnd.2 hinj'⟩
      intro hb
      rcases List.mem_filterMap.mp hb with ⟨a', ha't, hfa'⟩
      have heq := hinj a (List.mem_cons_self a t) a' (List.mem_cons_of_mem a ha't) b hfa hfa'
      exact hnd.1 (by rwa [← heq] at ha't)

lemma pair_finset_eq {l : List ℕ} (hl : l.Nodup) {i j i' j' : ℕ}
    (hij : i < j) (hjn : j < l.length) (hij' : i' < j') (hjn' : j' < l.length)
    (h : ({l.getD i 0, l.getD j 0} : Finset ℕ) = {l.getD i' 0, l.getD j' 0}) :
    i = i' ∧ j = j' := by
  have hin : i < l.length := lt_trans hij hjn
  have hin' : i' < l.length := lt_trans hij' hjn'
  rw [List.getD_eq_getElem l 0 hin, List.getD_eq_getElem l 0 hjn,
    List.getD_eq_getElem l 0 hin', List.getD_eq_getElem l 0 hjn'] at h
  have hne : l[i] ≠ l[j] := fun hc => by
    rw [hl.getElem_inj_iff] at hc
    omega
  have hmi : l[i] ∈ ({l[i'], l[j']} : Finset ℕ) := by
    rw [← h]
    exact Finset.mem_insert_self _ _
  have hmj : l[j] ∈ ({l[i'], l[j']} : Finset ℕ) := by
    rw [← h]
    exact Finset.mem_insert_of_mem (Finset.mem_singleton_self _)
  rcases Finset.mem_insert.mp hmi with h1 | h1 <;>
    rcases Finset.mem_insert.mp hmj with h2 | h2
  · exact absurd (h1.trans h2.symm) hne
  · rw [Finset.mem_singleton] at h2
    rw [hl.getElem_inj_iff] at h1 h2
    exact ⟨h1, h2⟩
  · rw [Finset.mem_singleton] at h1
    rw [hl.getElem_inj_iff] at h1 h2
    omega
  · rw [Finset.mem_singleton] at h1 h2
    exact absurd (h1.trans h2.symm) hne

/-- C4: level-2 candidate generation emits exactly the sets `{item_i, item_j}`
over index pairs `i < j` of the frequent-1 item list for which item_i clears
its own MIS, with no condition on item_j; with distinct frequent-1 items
no candidate set is emitted twice. -/
theorem level2_candidate_gen_spec (A : MSApriori)
    (frequent_1 : List FrequentRecord) :
    (∀ c : Finset ℕ, c ∈ A.level2_candidate_gen frequent_1 ↔
      ∃ i j : ℕ, i < j ∧ j < (frequent_1.map itemOf).length ∧
        A.get_mis ((frequent_1.map itemOf).getD i 0) ≤
          A.item_support ((frequent_1.map itemOf).getD i 0) ∧
        c = {(frequent_1.map itemOf).getD i 0,
             (frequent_1.map itemOf).getD j 0}) ∧
    ((frequent_1.map itemOf).Nodup →
      (A.level2_candidate_gen frequent_1).Nodup) := by
  constructor
  · intro c
    unfold MSApriori.level2_candidate_gen
    rw [List.mem_filterMap]
    constructor
    · rintro ⟨p, hp, hsome⟩
      rcases mem_pairsIdx.mp hp with ⟨h12, h2n⟩
      by_cases hcond : A.item_support ((frequent_1.map itemOf).getD p.1 0) ≥
          A.get_mis ((frequent_1.map itemOf).getD p.1 0)
      · rw [if_pos hcond] at hsome
        exact ⟨p.1, p.2, h12, h2n, hcond, (Option.some_inj.mp hsome).symm⟩
      · rw [if_neg hcond] at hsome
        exact absurd hsome (Option.noConfusion)
    · rintro ⟨i, j, hij, hjn, hcond, rfl⟩
      exact ⟨(i, j), mem_pairsIdx.mpr ⟨hij, hjn⟩, if_pos hcond⟩
  · intro hnd
    unfold MSApriori.level2_candidate_gen
    apply nodup_filterMap (pairsIdx_nodup _)
    intro p hp q hq b hbp hbq
    rcases mem_pairsIdx.mp hp with ⟨h12, h2n⟩
    rcases mem_pairsIdx.mp hq with ⟨h12', h2n'⟩
    have hbp' : b = {(frequent_1.map itemOf).getD p.1 0,
        (frequent_1.map itemOf).getD p.2 0} := by
      by_cases hcond : A.item_support ((frequent_1.map itemOf).getD p.1 0) ≥
          A.get_mis ((frequent_1.map itemOf).getD p.1 0)
      · rw [if_pos hcond] at hbp
        exact (Option.some_inj.mp hbp).symm
      · rw [if_neg hcond] at hbp
        exact absurd hbp (Option.noConfusion)
    have hbq' : b = {(frequent_1.map itemOf).getD q.1 0,
        (frequent_1.map itemOf).getD q.2 0} := by
      by_cases hcond : A.item_support ((frequent_1.map itemOf).getD q.1 0) ≥
          A.get_mis ((frequent_1.map itemOf).getD q.1 0)
      · rw [if_pos hcond] at hbq
        exact (Option.some_inj.mp hbq).symm
      · rw [if_neg hcond] at hbq
        exact absurd hbq (Option.noConfusion)
    have := pair_finset_eq hnd h12 h2n h12' h2n' (hbp'.symm.trans hbq')
    exact Prod.ext this.1 this.2

lemma sort_eq_of {s : Finset ℕ} {l : List ℕ} (h1 : List.Sorted (· ≤ ·) l)
    (h2 : l.Nodup) (h3 : l.toFinset = s) : s.sort (· ≤ ·) = l :=
  List.eq_of_perm_of_sorted
    (List.perm_of_nodup_nodup_toFinset_eq (Finset.sort_nodup _ _) h2
      (by rw [Finset.sort_toFinset, h3]))
    (Finset.sort_sorted _ _) h1

theorem level2_candidate_gen_spec_witness :
    (exA.level2_candidate_gen exFreq1).Nodup := by
  apply (level2_candidate_gen_spec exA exFreq1).2
  have h : List.map itemOf exFreq1 = [1, 2, 3] := by
    simp [exFreq1, itemOf, Finset.sort_singleton]
  rw [h]
  decide

lemma pruneCheck_iff (A : MSApriori) (fs : List (Finset ℕ)) (c : Finset ℕ)
    (hc : c.Nonempty) :
    A.pruneCheck fs c = true ↔
      ∀ item ∈ c,
        (c.min' hc ∈ c.erase item ∨ A.get_mis item = A.get_mis (c.min' hc)) →
          c.erase item ∈ fs := by
  unfold MSApriori.pruneCheck
  rw [headI_sort_eq_min' c hc, List.all_eq_true]
  constructor
  · intro h item hitem hcond
    have hthis := h item ((Finset.mem_sort _).mpr hitem)
    simp only [] at hthis
    rw [if_pos hcond] at hthis
    simpa using hthis
  · intro h x hx
    have hxc : x ∈ c := (Finset.mem_sort _).mp hx
    simp only []
    by_cases hcond :
        c.min' hc ∈ c.erase x ∨ A.get_mis x = A.get_mis (c.min' hc)
    · rw [if_pos hcond]
      simpa using h x hxc hcond
    · rw [if_neg hcond]

/-- C3: a size-k candidate (k ≥ 3) survives the prune step exactly when
every one-item-removed subset that still contains the smallest item c1 or
whose removed item has the same MIS as c1 is among the previous level's
frequent itemsets; subsets excluding c1 with a differing MIS are exempt. -/
theorem msapriori_candidate_gen_spec (A : MSApriori)
    (frequent_prev : List FrequentRecord) (k : ℕ) (c : Finset ℕ)
    (hk : 3 ≤ k) (hc : c.Nonempty) :
    c ∈ A.msapriori_candidate_gen frequent_prev k ↔
      c ∈ joinStep (frequent_prev.map (fun r => r.itemset)) k ∧
        ∀ item ∈ c,
          (c.min' hc ∈ c.erase item ∨ A.get_mis item = A.get_mis (c.min' hc)) →
            c.erase item ∈ frequent_prev.map (fun r => r.itemset) := by
  unfold MSApriori.msapriori_candidate_gen
  rw [List.mem_filter]
  exact and_congr_right
    (fun _ => pruneCheck_iff A (frequent_prev.map (fun r => r.itemset)) c hc)

theorem msapriori_candidate_gen_spec_witness :
    ({1, 2, 3} : Finset ℕ) ∈ exA.msapriori_candidate_gen exFreq2 3 := by
  have h12 : ({1, 2} : Finset ℕ).sort (· ≤ ·) = [1, 2] :=
    sort_eq_of (by decide) (by decide) (by decide)
  have h13 : ({1, 3} : Finset ℕ).sort (· ≤ ·) = [1, 3] :=
    sort_eq_of (by decide) (by decide) (by decide)
  have hunion : ({1, 2} : Finset ℕ) ∪ {1, 3} = {1, 2, 3} := by
    ext a
    simp only [Finset.mem_union, Finset.mem_insert, Finset.mem_singleton]
    omega
  have hpair : joinPair [{1, 2}, {1, 3}, {2, 3}] 3 0 1 = some {1, 2, 3} := by
    simp only [joinPair, List.getD_cons_zero, List.getD_cons_succ, h12, h13,
      hunion]
    rfl
  refine (msapriori_candidate_gen_spec exA exFreq2 3 {1, 2, 3} (by decide)
    ⟨1, by decide⟩).mpr ⟨?_, ?_⟩
  · have hmap : exFreq2.map (fun r => r.itemset) =
        [{1, 2}, {1, 3}, {2, 3}] := rfl
    rw [hmap]
    unfold joinStep
    exact List.mem_filterMap.mpr
      ⟨(0, 1), mem_pairsIdx.mpr ⟨by decide, by decide⟩, hpair⟩
  · intro item hitem hcond
    fin_cases hitem <;> decide

/-- C2: with anchor item M present, the size-1 frequent records are exactly
the observed items whose support ratio reaches the single threshold
`get_mis M` — not their own MIS — and whose singleton average price reaches
AVPT. -/
theorem init_pass_spec (A : MSApriori) (M : ℕ) (hM : A.findM = some M) :
    (∀ r ∈ A.init_pass, ∃ i, r.itemset = {i} ∧ i ∈ A.all_items ∧
      A.get_mis M ≤ A.item_support i ∧ A.avpt ≤ A.get_average_price {i}) ∧
    (∀ i ∈ A.all_items, A.get_mis M ≤ A.item_support i →
      A.avpt ≤ A.get_average_price {i} →
      ∃ r ∈ A.init_pass, r.itemset = {i}) := by
  have hinit : A.init_pass = A.sorted_items.filterMap (fun item =>
      if A.item_support item ≥ A.get_mis M ∧ A.satisfies_avpt {item} = true then
        some (A.mkRecord {item} (A.item_count item))
      else none) := by
    unfold MSApriori.init_pass
    rw [hM]
    simp only [ite_self]
  constructor
  · intro r hr
    rw [hinit] at hr
    rcases List.mem_filterMap.mp hr with ⟨item, hmem, hsome⟩
    by_cases hcond :
        A.item_support item ≥ A.get_mis M ∧ A.satisfies_avpt {item} = true
    · rw [if_pos hcond] at hsome
      have hrec := Option.some_inj.mp hsome
      refine ⟨item, ?_, MSApriori.mem_sorted_items.mp hmem, hcond.1, ?_⟩
      · rw [← hrec]
        rfl
      · have hav := hcond.2
        unfold MSApriori.satisfies_avpt at hav
        simpa using hav
    · rw [if_neg hcond] at hsome
      exact absurd hsome Option.noConfusion
  · intro i hi hsup havg
    refine ⟨A.mkRecord {i} (A.item_count i), ?_, rfl⟩
    rw [hinit]
    apply List.mem_filterMap.mpr
    refine ⟨i, MSApriori.mem_sorted_items.mpr hi, ?_⟩
    have hav : A.satisfies_avpt {i} = true := by
      unfold MSApriori.satisfies_avpt
      simpa using havg
    rw [if_pos ⟨hsup, hav⟩]

theorem init_pass_spec_witness :
    exA.findM = some 1 ∧ ∃ r ∈ exA.init_pass, r.itemset = {1} := by
  have hmis : ∀ x, exA.get_mis x = 1 / 5 := fun x => rfl
  have hsort : exA.all_items.sort (· ≤ ·) = [1, 2, 3] :=
    sort_eq_of (by decide) (by decide) (by decide)
  have hsorted : exA.sorted_items = [1, 2, 3] := by
    unfold MSApriori.sorted_items
    rw [hsort]
    apply List.mergeSort_of_sorted
    norm_num [hmis]
  have hsc1 : exA.get_support_count {1} = 4 := by decide
  have hsup1 : exA.get_mis 1 ≤ exA.item_support 1 := by
    unfold MSApriori.item_support MSApriori.total_transactions
    rw [hsc1, hmis]
    norm_num [exA]
  have hM : exA.findM = some 1 := by
    unfold MSApriori.findM
    rw [hsorted]
    have hp : decide (exA.item_support 1 ≥ exA.get_mis 1) = true := by
      simpa using hsup1
    rw [List.find?_cons, hp]
  have havg : exA.avpt ≤ exA.get_average_price {1} := by
    unfold MSApriori.get_average_price MSApriori.get_price
    norm_num [exA]
  exact ⟨hM, (init_pass_spec exA 1 hM).2 1 (by decide) hsup1 havg⟩

/-! ### Structure of join-step candidates and loop termination -/

lemma mem_joinStep {l : List (Finset ℕ)} {k : ℕ} {c : Finset ℕ}
    (h : c ∈ joinStep l k) : c.card = k ∧ ∃ si ∈ l, ∃ sj ∈ l, c = si ∪ sj := by
  unfold joinStep at h
  rcases List.mem_filterMap.mp h with ⟨p, hp, hsome⟩
  rcases mem_pairsIdx.mp hp with ⟨h12, h2n⟩
  have h1n : p.1 < l.length := lt_trans h12 h2n
  unfold joinPair at hsome
  simp only [] at hsome
  by_cases hpre : ((l.getD p.1 ∅).sort (· ≤ ·)).dropLast =
      ((l.getD p.2 ∅).sort (· ≤ ·)).dropLast
  · rw [if_pos hpre] at hsome
    by_cases hcard : (l.getD p.1 ∅ ∪ l.getD p.2 ∅).card = k
    · rw [if_pos hcard] at hsome
      have hu := Option.some_inj.mp hsome
      refine ⟨by rw [← hu]; exact hcard, l.getD p.1 ∅, ?_, l.getD p.2 ∅, ?_,
        hu.symm⟩
      · rw [List.getD_eq_getElem l ∅ h1n]
        exact List.getElem_mem _
      · rw [List.getD_eq_getElem l ∅ h2n]
        exact List.getElem_mem _
    · rw [if_neg hcard] at hsome
      exact absurd hsome Option.noConfusion
  · rw [if_neg hpre] at hsome
    exact absurd hsome Option.noConfusion

lemma joinStep_eq_nil {l : List (Finset ℕ)} {k : ℕ} {U : Finset ℕ}
    (hsub : ∀ s ∈ l, s ⊆ U) (hk : U.card < k) : joinStep l k = [] := by
  rw [List.eq_nil_iff_forall_not_mem]
  intro c hc
  rcases mem_joinStep hc with ⟨hcard, si, hsi, sj, hsj, rfl⟩
  have hsubU : si ∪ sj ⊆ U := Finset.union_subset (hsub si hsi) (hsub sj hsj)
  have := Finset.card_le_card hsubU
  omega

lemma msapriori_candidate_gen_sub (A : MSApriori) {fp : List FrequentRecord}
    {k : ℕ} {U : Finset ℕ} (hsub : ∀ r ∈ fp, r.itemset ⊆ U) :
    ∀ c ∈ A.msapriori_candidate_gen fp k, c ⊆ U := by
  intro c hc
  unfold MSApriori.msapriori_candidate_gen at hc
  have hj := (List.mem_filter.mp hc).1
  rcases mem_joinStep hj with ⟨_, si, hsi, sj, hsj, rfl⟩
  rcases List.mem_map.mp hsi with ⟨ri, hri, hei⟩
  rcases List.mem_map.mp hsj with ⟨rj, hrj, hej⟩
  exact Finset.union_subset (hei ▸ hsub ri hri) (hej ▸ hsub rj hrj)

lemma msapriori_candidate_gen_nil (A : MSApriori) {fp : List FrequentRecord}
    {k : ℕ} (hsub : ∀ r ∈ fp, r.itemset ⊆ A.all_items)
    (hk : A.all_items.card < k) : A.msapriori_candidate_gen fp k = [] := by
  have hnil : joinStep (List.map (fun r => r.itemset) fp) k = [] := by
    apply joinStep_eq_nil ?_ hk
    intro s hs
    rcases List.mem_map.mp hs with ⟨r, hr, he⟩
    exact he ▸ hsub r hr
  unfold MSApriori.msapriori_candidate_gen
  simp only [hnil, List.filter_nil]

lemma constraintFilter_itemset_mem {A : MSApriori} {cands : List (Finset ℕ)}
    {r : FrequentRecord} (h : r ∈ A.constraintFilter cands) :
    r.itemset ∈ cands := by
  unfold MSApriori.constraintFilter at h
  rcases List.mem_filterMap.mp h with ⟨c, hc, hsome⟩
  split at hsome
  · rw [← Option.some_inj.mp hsome]
    exact hc
  · exact absurd hsome Option.noConfusion

lemma runLoop_eq_nil (A : MSApriori) {fp : List FrequentRecord} {k : ℕ}
    (hsub : ∀ r ∈ fp, r.itemset ⊆ A.all_items) (hk : A.all_items.card < k) :
    ∀ fuel, A.runLoop fp k fuel = [] := by
  intro fuel
  cases fuel with
  | zero => rfl
  | succ n =>
    unfold MSApriori.runLoop
    rw [msapriori_candidate_gen_nil A hsub hk]
    simp

lemma runLoop_fuel_congr (A : MSApriori) :
    ∀ (fuel fuel' : ℕ) (fp : List FrequentRecord) (k : ℕ),
      (∀ r ∈ fp, r.itemset ⊆ A.all_items) →
      A.all_items.card < k + fuel → A.all_items.card < k + fuel' →
      A.runLoop fp k fuel = A.runLoop fp k fuel' := by
  intro fuel
  induction fuel with
  | zero =>
    intro fuel' fp k hsub h1 h2
    have hk : A.all_items.card < k := by omega
    rw [runLoop_eq_nil A hsub hk fuel']
    rfl
  | succ n ih =>
    intro fuel' fp k hsub h1 h2
    cases fuel' with
    | zero =>
      have hk : A.all_items.card < k := by omega
      rw [runLoop_eq_nil A hsub hk (n + 1)]
      rfl
    | succ m =>
      unfold MSApriori.runLoop
      by_cases hcand : A.msapriori_candidate_gen fp k = []
      · rw [if_pos hcand, if_pos hcand]
      · rw [if_neg hcand, if_neg hcand]
        by_cases hfreq :
            A.constraintFilter (A.msapriori_candidate_gen fp k) = []
        · rw [if_pos hfreq, if_pos hfreq]
        · rw [if_neg hfreq, if_neg hfreq]
          congr 1
          have hsub' : ∀ r ∈ A.constraintFilter (A.msapriori_candidate_gen fp k),
              r.itemset ⊆ A.all_items :=
            fun r hr =>
              msapriori_candidate_gen_sub A hsub r.itemset
                (constraintFilter_itemset_mem hr)
          exact ih m _ (k + 1) hsub' (by omega) (by omega)

lemma runLoop_levels (A : MSApriori) :
    ∀ (fuel : ℕ) (fp : List FrequentRecord) (k : ℕ),
      (A.runLoop fp k fuel).map Prod.fst =
        List.range' k (A.runLoop fp k fuel).length := by
  intro fuel
  induction fuel with
  | zero => intro fp k; rfl
  | succ n ih =>
    intro fp k
    unfold MSApriori.runLoop
    by_cases hcand : A.msapriori_candidate_gen fp k = []
    · rw [if_pos hcand]
      rfl
    · rw [if_neg hcand]
      by_cases hfreq : A.constraintFilter (A.msapriori_candidate_gen fp k) = []
      · rw [if_pos hfreq]
        rfl
      · rw [if_neg hfreq]
        simp only [List.map_cons, List.length_cons, ih]
        rw [List.range'_succ]

/-- C9: the level loop of `run_msapriori` terminates: when the itemsets fed
to a level all draw from the observed items, the loop's value is the same
for any fuel large enough that the level index would exceed the observed
item count, the loop stops as soon as candidate generation or constraint
filtering yields nothing, and the recorded levels are consecutive ascending
integers starting at the entry level. -/
theorem run_msapriori_terminates (A : MSApriori) (fp : List FrequentRecord)
    (k fuel fuel' : ℕ) (hsub : ∀ r ∈ fp, r.itemset ⊆ A.all_items)
    (h1 : A.all_items.card < k + fuel) (h2 : A.all_items.card < k + fuel') :
    A.runLoop fp k fuel = A.runLoop fp k fuel' ∧
    (A.msapriori_candidate_gen fp k = [] → A.runLoop fp k fuel = []) ∧
    (A.constraintFilter (A.msapriori_candidate_gen fp k) = [] →
      A.runLoop fp k fuel = []) ∧
    (A.runLoop fp k fuel).map Prod.fst =
      List.range' k (A.runLoop fp k fuel).length := by
  refine ⟨runLoop_fuel_congr A fuel fuel' fp k hsub h1 h2, ?_, ?_,
    runLoop_levels A fuel fp k⟩
  · intro hcand
    cases fuel with
    | zero => rfl
    | succ n =>
      unfold MSApriori.runLoop
      rw [if_pos hcand]
  · intro hfreq
    cases fuel with
    | zero => rfl
    | succ n =>
      unfold MSApriori.runLoop
      by_cases hcand : A.msapriori_candidate_gen fp k = []
      · rw [if_pos hcand]
      · rw [if_neg hcand, if_pos hfreq]

theorem run_msapriori_terminates_witness :
    exA.runLoop [] 3 5 = exA.runLoop [] 3 9 :=
  (run_msapriori_terminates exA [] 3 5 9 (by simp) (by decide) (by decide)).1

/-! ### Uniqueness of the join pair producing a candidate -/

lemma topOf_spec {c : Finset ℕ} {x : ℕ} (hx : x ∈ c)
    (hmax : ∀ z ∈ c, z ≤ x) : topOf c = x := by
  unfold topOf
  rw [dif_pos ⟨x, hx⟩]
  exact le_antisymm (Finset.max'_le _ _ _ hmax) (Finset.le_max' _ _ hx)

lemma parts_of_union {P : Finset ℕ} {x y : ℕ} {c : Finset ℕ}
    (hxy : x < y) (hpx : ∀ p ∈ P, p < x) (hpy : ∀ p ∈ P, p < y)
    (hc : c = insert x (insert y P)) :
    topOf c = y ∧ c.erase y = insert x P ∧ sndOf c = x ∧
      c.erase x = insert y P := by
  have hyc : y ∈ c := by
    rw [hc]
    exact Finset.mem_insert_of_mem (Finset.mem_insert_self _ _)
  have htop : topOf c = y := by
    apply topOf_spec hyc
    intro z hz
    rw [hc] at hz
    rcases Finset.mem_insert.mp hz with h1 | h1
    · exact h1 ▸ le_of_lt hxy
    · rcases Finset.mem_insert.mp h1 with h2 | h2
      · exact h2 ▸ le_refl y
      · exact le_of_lt (hpy z h2)
  have hey : c.erase y = insert x P := by
    ext a
    rw [Finset.mem_erase, hc]
    simp only [Finset.mem_insert]
    constructor
    · rintro ⟨hne, h1 | h1 | h1⟩
      · exact Or.inl h1
      · exact absurd h1 hne
      · exact Or.inr h1
    · rintro (h1 | h1)
      · exact ⟨h1 ▸ ne_of_lt hxy, Or.inl h1⟩
      · exact ⟨ne_of_lt (hpy a h1), Or.inr (Or.inr h1)⟩
  have hsnd : sndOf c = x := by
    unfold sndOf
    rw [htop, hey]
    apply topOf_spec (Finset.mem_insert_self _ _)
    intro z hz
    rcases Finset.mem_insert.mp hz with h1 | h1
    · exact h1 ▸ le_refl x
    · exact le_of_lt (hpx z h1)
  have hex : c.erase x = insert y P := by
    ext a
    rw [Finset.mem_erase, hc]
    simp only [Finset.mem_insert]
    constructor
    · rintro ⟨hne, h1 | h1 | h1⟩
      · exact absurd h1 hne
      · exact Or.inl h1
      · exact Or.inr h1
    · rintro (h1 | h1)
      · exact ⟨h1 ▸ ne_of_gt hxy, Or.inr (Or.inl h1)⟩
      · exact ⟨ne_of_lt (hpx a h1), Or.inr (Or.inr h1)⟩
  exact ⟨htop, hey, hsnd, hex⟩

lemma join_decomp {si sj c : Finset ℕ} {k : ℕ} (hk : 3 ≤ k) (hne : si ≠ sj)
    (hpre : (si.sort (· ≤ ·)).dropLast = (sj.sort (· ≤ ·)).dropLast)
    (hu : si ∪ sj = c) (hcard : c.card = k) :
    (si = c.erase (topOf c) ∧ sj = c.erase (sndOf c)) ∨
    (si = c.erase (sndOf c) ∧ sj = c.erase (topOf c)) := by
  have hlen := congrArg List.length hpre
  rw [List.length_dropLast, List.length_dropLast, Finset.length_sort,
    Finset.length_sort] at hlen
  have hcle : c.card ≤ si.card + sj.card := hu ▸ Finset.card_union_le si sj
  have hm2 : 2 ≤ si.card ∧ si.card = sj.card := by
    rcases Nat.lt_or_ge si.card 2 with h1 | h1
    · rcases Nat.lt_or_ge sj.card 2 with h2 | h2
      · omega
      · omega
    · omega
  obtain ⟨hsi2, hmeq⟩ := hm2
  have hsine : si.Nonempty := Finset.card_pos.mp (by omega)
  have hsjne : sj.Nonempty := Finset.card_pos.mp (by omega)
  have hPi := dropLast_sort_toFinset si hsine
  have hPj := dropLast_sort_toFinset sj hsjne
  have hPP : si.erase (si.max' hsine) = sj.erase (sj.max' hsjne) := by
    rw [← hPi, ← hPj, hpre]
  have hxP : si.max' hsine ∉ si.erase (si.max' hsine) :=
    Finset.not_mem_erase _ _
  have hyP : sj.max' hsjne ∉ si.erase (si.max' hsine) := by
    rw [hPP]
    exact Finset.not_mem_erase _ _
  have hsix : si = insert (si.max' hsine) (si.erase (si.max' hsine)) :=
    (Finset.insert_erase (si.max'_mem hsine)).symm
  have hsjy : sj = insert (sj.max' hsjne) (si.erase (si.max' hsine)) := by
    rw [hPP]
    exact (Finset.insert_erase (sj.max'_mem hsjne)).symm
  have hxy_ne : si.max' hsine ≠ sj.max' hsjne := by
    intro he
    apply hne
    rw [hsix, hsjy, he]
  have hpx : ∀ p ∈ si.erase (si.max' hsine), p < si.max' hsine := by
    intro p hp
    exact lt_of_le_of_ne (Finset.le_max' si p (Finset.mem_erase.mp hp).2)
      (Finset.mem_erase.mp hp).1
  have hpy : ∀ p ∈ si.erase (si.max' hsine), p < sj.max' hsjne := by
    intro p hp
    rw [hPP] at hp
    exact lt_of_le_of_ne (Finset.le_max' sj p (Finset.mem_erase.mp hp).2)
      (Finset.mem_erase.mp hp).1
  have hcxy : c = insert (si.max' hsine)
      (insert (sj.max' hsjne) (si.erase (si.max' hsine))) := by
    rw [← hu]
    nth_rewrite 1 [hsix]
    nth_rewrite 1 [hsjy]
    ext a
    simp only [Finset.mem_union, Finset.mem_insert]
    tauto
  rcases lt_or_gt_of_ne hxy_ne with hlt | hgt
  · obtain ⟨htop, hey, hsnd, hex⟩ := parts_of_union hlt hpx hpy hcxy
    left
    constructor
    · rw [htop, hey]
      exact hsix
    · rw [hsnd, hex]
      exact hsjy
  · have hcyx : c = insert (sj.max' hsjne)
        (insert (si.max' hsine) (si.erase (si.max' hsine))) := by
      rw [hcxy]
      ext a
      simp only [Finset.mem_insert]
      tauto
    obtain ⟨htop, hey, hsnd, hex⟩ := parts_of_union hgt hpy hpx hcyx
    right
    constructor
    · rw [hsnd, hex]
      exact hsix
    · rw [htop, hey]
      exact hsjy

lemma joinPair_eq_some {l : List (Finset ℕ)} {k i j : ℕ} {c : Finset ℕ}
    (h : joinPair l k i j = some c) :
    ((l.getD i ∅).sort (· ≤ ·)).dropLast =
        ((l.getD j ∅).sort (· ≤ ·)).dropLast ∧
      l.getD i ∅ ∪ l.getD j ∅ = c ∧ c.card = k := by
  unfold joinPair at h
  by_cases hpre : ((l.getD i ∅).sort (· ≤ ·)).dropLast =
      ((l.getD j ∅).sort (· ≤ ·)).dropLast
  · rw [if_pos hpre] at h
    by_cases hcard : (l.getD i ∅ ∪ l.getD j ∅).card = k
    · rw [if_pos hcard] at h
      have hu := Option.some_inj.mp h
      exact ⟨hpre, hu, hu ▸ hcard⟩
    · rw [if_neg hcard] at h
      exact absurd h Option.noConfusion
  · rw [if_neg hpre] at h
    exact absurd h Option.noConfusion

lemma joinPair_inj {l : List (Finset ℕ)} (hl : l.Nodup) {k : ℕ} (hk : 3 ≤ k)
    {i j i' j' : ℕ} {c : Finset ℕ}
    (hij : i < j) (hjn : j < l.length) (hij' : i' < j') (hjn' : j' < l.length)
    (h : joinPair l k i j = some c) (h' : joinPair l k i' j' = some c) :
    i = i' ∧ j = j' := by
  obtain ⟨hpre, hu, hcard⟩ := joinPair_eq_some h
  obtain ⟨hpre', hu', _⟩ := joinPair_eq_some h'
  have hin : i < l.length := lt_trans hij hjn
  have hin' : i' < l.length := lt_trans hij' hjn'
  rw [List.getD_eq_getElem l ∅ hin, List.getD_eq_getElem l ∅ hjn] at hpre hu
  rw [List.getD_eq_getElem l ∅ hin', List.getD_eq_getElem l ∅ hjn'] at hpre' hu'
  have hne : l[i] ≠ l[j] := fun hc => by
    rw [hl.getElem_inj_iff] at hc
    omega
  have hne' : l[i'] ≠ l[j'] := fun hc => by
    rw [hl.getElem_inj_iff] at hc
    omega
  have hd := join_decomp hk hne hpre hu hcard
  have hd' := join_decomp hk hne' hpre' hu' hcard
  rcases hd with ⟨ha, hb⟩ | ⟨ha, hb⟩ <;> rcases hd' with ⟨ha', hb'⟩ | ⟨ha', hb'⟩
  · have e1 : l[i] = l[i'] := ha.trans ha'.symm
    have e2 : l[j] = l[j'] := hb.trans hb'.symm
    rw [hl.getElem_inj_iff] at e1 e2
    exact ⟨e1, e2⟩
  · have e1 : l[i] = l[j'] := ha.trans hb'.symm
    have e2 : l[j] = l[i'] := hb.trans ha'.symm
    rw [hl.getElem_inj_iff] at e1 e2
    omega
  · have e1 : l[i] = l[j'] := ha.trans hb'.symm
    have e2 : l[j] = l[i'] := hb.trans ha'.symm
    rw [hl.getElem_inj_iff] at e1 e2
    omega
  · have e1 : l[i] = l[i'] := ha.trans ha'.symm
    have e2 : l[j] = l[j'] := hb.trans hb'.symm
    rw [hl.getElem_inj_iff] at e1 e2
    exact ⟨e1, e2⟩

lemma joinStep_nodup {l : List (Finset ℕ)} (hl : l.Nodup) {k : ℕ}
    (hk : 3 ≤ k) : (joinStep l k).Nodup := by
  unfold joinStep
  apply nodup_filterMap (pairsIdx_nodup _)
  intro p hp q hq c hcp hcq
  rcases mem_pairsIdx.mp hp with ⟨h12, h2n⟩
  rcases mem_pairsIdx.mp hq with ⟨h12', h2n'⟩
  have := joinPair_inj hl hk h12 h2n h12' h2n' hcp hcq
  exact Prod.ext this.1 this.2

lemma constraintFilter_map_itemset (A : MSApriori) (cands : List (Finset ℕ)) :
    (A.constraintFilter cands).map (fun r => r.itemset) =
      cands.filter (fun c =>
        A.minSupportOK c && A.satisfies_sdc c && A.satisfies_avpt c) := by
  induction cands with
  | nil => rfl
  | cons c t ih =>
    unfold MSApriori.constraintFilter at ih ⊢
    rw [List.filterMap_cons, List.filter_cons]
    by_cases hcond :
        (A.minSupportOK c && A.satisfies_sdc c && A.satisfies_avpt c) = true
    · rw [if_pos hcond, if_pos hcond]
      simp only [List.map_cons]
      rw [ih]
      rfl
    · rw [if_neg hcond, if_neg hcond]
      exact ih

/-- C7: with the previous level's frequent itemsets pairwise distinct, the
candidate list handed to constraint evaluation at a level k ≥ 3 contains no
two equal itemsets, and the surviving frequent records again carry pairwise
distinct itemsets. -/
theorem msapriori_candidate_gen_nodup (A : MSApriori)
    (frequent_prev : List FrequentRecord) (k : ℕ) (hk : 3 ≤ k)
    (hl : (frequent_prev.map (fun r => r.itemset)).Nodup) :
    (A.msapriori_candidate_gen frequent_prev k).Nodup ∧
    ((A.constraintFilter (A.msapriori_candidate_gen frequent_prev k)).map
      (fun r => r.itemset)).Nodup := by
  have hgen : (A.msapriori_candidate_gen frequent_prev k).Nodup := by
    unfold MSApriori.msapriori_candidate_gen
    exact (joinStep_nodup hl hk).filter _
  refine ⟨hgen, ?_⟩
  rw [constraintFilter_map_itemset]
  exact hgen.filter _

theorem msapriori_candidate_gen_nodup_witness :
    (exA.msapriori_candidate_gen exFreq2 3).Nodup ∧
      ((exA.constraintFilter (exA.msapriori_candidate_gen exFreq2 3)).map
        (fun r => r.itemset)).Nodup :=
  msapriori_candidate_gen_nodup exA exFreq2 3 (by decide) (by decide)
